import Mathlib

/-!
Verification development for the line-oriented Markdown-to-LaTeX transducer
`md2tex.py`.  The Python source is shallowly embedded: strings are `List Char`,
each `re.sub` pass is an explicit left-to-right scanner with the exact
leftmost / lazy / greedy-with-backtracking semantics of the source patterns,
and the per-line state machine of `convert` is a fold over the line list with
an explicit state record.  Whitespace classes model the ASCII part of Python's
`str.strip` / `\s` (all inputs in scope are ASCII).
-/

set_option maxRecDepth 20000

/-- Coerces a string literal to the character-list representation used
throughout the development. -/
def chars (s : String) : List Char := s.data

/-- ASCII whitespace, as stripped by Python `str.strip` and matched by `\s`. -/
def isPySpace (c : Char) : Bool :=
  c = ' ' || c = '\t' || c = '\n' || c = '\r' || c = '\x0b' || c = '\x0c'

/-- Tests whether `p` is an initial segment of `l`. -/
def leadsWith : List Char → List Char → Bool
  | [], _ => true
  | _ :: _, [] => false
  | a :: as, b :: bs => a = b && leadsWith as bs

/-- Tests whether `p` occurs as a contiguous substring of `l`. -/
def containsSub (p : List Char) : List Char → Bool
  | [] => leadsWith p []
  | c :: r => leadsWith p (c :: r) || containsSub p r

/-- Counts the positions of `l` at which the pattern `p` begins. -/
def countSub (p : List Char) : List Char → Nat
  | [] => if leadsWith p [] then 1 else 0
  | c :: r => (if leadsWith p (c :: r) then 1 else 0) + countSub p r

/-- Splits on a delimiter character with Python `str.split` semantics:
the result always has one more element than the number of delimiters. -/
def splitOnChar (d : Char) : List Char → List (List Char)
  | [] => [[]]
  | c :: r =>
    if c = d then [] :: splitOnChar d r
    else
      match splitOnChar d r with
      | [] => [[c]]
      | h :: t => (c :: h) :: t

/-- Joins fragments with a delimiter character, as Python `str.join`. -/
def joinWith (d : Char) : List (List Char) → List Char
  | [] => []
  | [x] => x
  | x :: xs => x ++ d :: joinWith d xs

/-- Removes trailing whitespace, as the right half of Python `str.strip`. -/
def dropTrail (l : List Char) : List Char :=
  (l.reverse.dropWhile isPySpace).reverse

/-- Python `str.strip`: removes leading and trailing whitespace. -/
def pyStrip (l : List Char) : List Char :=
  dropTrail (l.dropWhile isPySpace)

/-- Python `get_indent`: the number of leading whitespace characters. -/
def get_indent (l : List Char) : Nat :=
  (l.takeWhile isPySpace).length

/-- Decimal digit list of a natural number, as Python `str(i)`.
Structured with explicit fuel so that the kernel can evaluate it. -/
def natDigitsAux : Nat → Nat → List Char
  | 0, _ => []
  | fuel + 1, n =>
    if n < 10 then [Nat.digitChar n]
    else natDigitsAux fuel (n / 10) ++ [Nat.digitChar (n % 10)]

/-- Decimal representation of `n` as characters. -/
def natDigits (n : Nat) : List Char := natDigitsAux (n + 1) n

/-- The NUL-delimited placeholder token `\x00MATH<i>\x00` from `save_math`. -/
def sentinel (i : Nat) : List Char :=
  '\x00' :: (chars "MATH" ++ natDigits i) ++ ['\x00']

/-- Finds the first occurrence of the two-character closer `[a, b]`; the
lazy `.*?` before it may not cross a newline.  Returns the text before the
closer and the text after it. -/
def findClose2 (a b : Char) : List Char → Option (List Char × List Char)
  | [] => none
  | [_] => none
  | x :: y :: rest =>
    if x = a ∧ y = b then some ([], y :: rest |>.drop 1)
    else if x = '\n' then none
    else
      match findClose2 a b (y :: rest) with
      | some (pre, post) => some (x :: pre, post)
      | none => none

/-- Finds the first occurrence of a one-character closer `d`; the lazy `.*?`
before it may not cross a newline. -/
def findClose1 (d : Char) : List Char → Option (List Char × List Char)
  | [] => none
  | x :: r =>
    if x = d then some ([], r)
    else if x = '\n' then none
    else
      match findClose1 d r with
      | some (pre, post) => some (x :: pre, post)
      | none => none

/-- Closer search for `(.+?)` groups before a two-character closer: the group
must be nonempty, so the closer is sought from offset 1 on. -/
def close2From1 (a b : Char) : List Char → Option (List Char × List Char)
  | [] => none
  | x :: r =>
    if x = '\n' then none
    else
      match findClose2 a b r with
      | some (pre, post) => some (x :: pre, post)
      | none => none

/-- Closer search for `(.+?)` groups before a one-character closer. -/
def close1From1 (d : Char) : List Char → Option (List Char × List Char)
  | [] => none
  | x :: r =>
    if x = '\n' then none
    else
      match findClose1 d r with
      | some (pre, post) => some (x :: pre, post)
      | none => none

/-- Matcher for the tail of `\$[^$]+\$` after the opening dollar: a maximal
nonempty run of non-dollar characters followed by a dollar. -/
def dollarClose (rest : List Char) : Option (List Char × List Char) :=
  let m := rest.takeWhile (fun c => !(c = '$'))
  if m = [] then none
  else
    match rest.drop m.length with
    | c :: post => if c = '$' then some (m, post) else none
    | [] => none

/-- Attempts a math match with a two-character opener and closer at the head
of the text, returning the matched span and the remainder. -/
def try2 (oa ob ca cb : Char) (l : List Char) : Option (List Char × List Char) :=
  match l with
  | a :: b :: rest =>
    if a = oa ∧ b = ob then
      match findClose2 ca cb rest with
      | some (mid, post) => some (a :: b :: (mid ++ [ca, cb]), post)
      | none => none
    else none
  | _ => none

/-- Attempts a `\$[^$]+\$` match at the head of the text. -/
def try1dollar (l : List Char) : Option (List Char × List Char) :=
  match l with
  | a :: rest =>
    if a = '$' then
      match dollarClose rest with
      | some (mid, post) => some (a :: (mid ++ ['$']), post)
      | none => none
    else none
  | [] => none

/-- Attempts a two-character-delimited bold match (`\*\*(.+?)\*\*` or
`__(.+?)__`) at the head of the text, returning group and remainder. -/
def tryBold (d : Char) (l : List Char) : Option (List Char × List Char) :=
  match l with
  | a :: b :: rest => if a = d ∧ b = d then close2From1 d d rest else none
  | _ => none

/-- Attempts a one-character-delimited match (italic or inline code) at the
head of the text, returning group and remainder. -/
def tryItal (d : Char) (l : List Char) : Option (List Char × List Char) :=
  match l with
  | a :: rest => if a = d then close1From1 d rest else none
  | [] => none

/-- One `re.sub` pass of `save_math`: each match is appended to the
placeholder list and replaced by its positional sentinel; scanning resumes
after the match, exactly as `re.sub` does. -/
def mathPassAux (tryM : List Char → Option (List Char × List Char)) :
    Nat → List Char → List (List Char) → List Char × List (List Char)
  | _, [], ph => ([], ph)
  | 0, l, ph => (l, ph)
  | fuel + 1, c :: r, ph =>
    match tryM (c :: r) with
    | some (span, post) =>
      let res := mathPassAux tryM fuel post (ph ++ [span])
      (sentinel ph.length ++ res.1, res.2)
    | none =>
      let res := mathPassAux tryM fuel r ph
      (c :: res.1, res.2)

/-- Runs a `save_math` pass over the whole text. -/
def mathPass (tryM : List Char → Option (List Char × List Char))
    (l : List Char) (ph : List (List Char)) : List Char × List (List Char) :=
  mathPassAux tryM (l.length + 1) l ph

/-- One formatting `re.sub` pass (bold, italic, or inline code): each matched
group is wrapped and scanning resumes after the match. -/
def fmtPassAux (tryM : List Char → Option (List Char × List Char))
    (wrap : List Char → List Char) : Nat → List Char → List Char
  | _, [] => []
  | 0, l => l
  | fuel + 1, c :: r =>
    match tryM (c :: r) with
    | some (mid, post) => wrap mid ++ fmtPassAux tryM wrap fuel post
    | none => c :: fmtPassAux tryM wrap fuel r

/-- Runs a formatting pass over the whole text. -/
def fmtPass (tryM : List Char → Option (List Char × List Char))
    (wrap : List Char → List Char) (l : List Char) : List Char :=
  fmtPassAux tryM wrap (l.length + 1) l

/-- Builds the replacement `cmd{group}` used by the formatting passes. -/
def wrapCmd (cmd : List Char) (mid : List Char) : List Char :=
  cmd ++ '\x7b' :: (mid ++ ['\x7d'])

/-- The `text.replace('%', '\\%')` step of `convert_inline`. -/
def escapePercent : List Char → List Char
  | [] => []
  | c :: r => if c = '%' then '\\' :: '%' :: escapePercent r else c :: escapePercent r

/-- Python `str.replace`: replaces every non-overlapping occurrence of the
nonempty pattern `p`, scanning left to right. -/
def replaceAllAux (p rep : List Char) : Nat → List Char → List Char
  | _, [] => []
  | 0, l => l
  | fuel + 1, c :: r =>
    if leadsWith p (c :: r) then rep ++ replaceAllAux p rep fuel ((c :: r).drop p.length)
    else c :: replaceAllAux p rep fuel r

/-- Replaces every occurrence of `p` by `rep` in `l`. -/
def replaceAll (p rep l : List Char) : List Char :=
  replaceAllAux p rep (l.length + 1) l

/-- The restoration loop of `convert_inline`: placeholders are substituted
back in ascending index order. -/
def restoreAux : Nat → List (List Char) → List Char → List Char
  | _, [], t => t
  | i, m :: ms, t => restoreAux (i + 1) ms (replaceAll (sentinel i) m t)

/-- The four math-extraction passes of `convert_inline`, in source order:
parenthesized inline math, bracketed display math, double-dollar math,
single-dollar math.  Returns the text with sentinels and the placeholder
list shared across the passes. -/
def mathExtract (text : List Char) : List Char × List (List Char) :=
  let p1 := mathPass (try2 '\\' '(' '\\' ')') text []
  let p2 := mathPass (try2 '\\' '[' '\\' ']') p1.1 p1.2
  let p3 := mathPass (try2 '$' '$' '$' '$') p2.1 p2.2
  mathPass try1dollar p3.1 p3.2

/-- The five formatting steps of `convert_inline`, in source order: bold
(asterisk, underscore), italic (asterisk, underscore), inline code, then
percent escaping. -/
def applyFmt (t : List Char) : List Char :=
  let t5 := fmtPass (tryBold '*') (wrapCmd (chars "\\textbf")) t
  let t6 := fmtPass (tryBold '_') (wrapCmd (chars "\\textbf")) t5
  let t7 := fmtPass (tryItal '*') (wrapCmd (chars "\\textit")) t6
  let t8 := fmtPass (tryItal '_') (wrapCmd (chars "\\textit")) t7
  escapePercent (fmtPass (tryItal '\x60') (wrapCmd (chars "\\texttt")) t8)

/-- The inline formatter `convert_inline`: math extraction in four passes,
then bold, italic, code, percent escaping, then placeholder restoration. -/
def convert_inline (text : List Char) : List Char :=
  restoreAux 0 (mathExtract text).2 (applyFmt (mathExtract text).1)

/-- The two list kinds of the converter. -/
inductive LKind
  | ul
  | ol
deriving DecidableEq

/-- The mutable local state of one `convert` call: output fragments, the
list-nesting stack (top of stack at the head), the table flag, and the table
accumulator. -/
structure St where
  out : List (List Char)
  list_stack : List (LKind × Nat)
  in_table : Bool
  table_rows : List (List (List Char))

/-- Environment-closing fragment for a list kind. -/
def endEnv : LKind → List Char
  | LKind.ul => chars "\\end{itemize}"
  | LKind.ol => chars "\\end{enumerate}"

/-- Environment-opening fragment for a list kind. -/
def beginEnv : LKind → List Char
  | LKind.ul => chars "\\begin{itemize}"
  | LKind.ol => chars "\\begin{enumerate}"

/-- The loop of `close_lists_to_level`: pops every entry whose indent is at
least `target`, emitting the closing fragment for each, and emits one blank
fragment when the pop empties the stack.  Returns the remaining stack and the
emitted fragments. -/
def closePops (target : Nat) : List (LKind × Nat) → List (LKind × Nat) × List (List Char)
  | [] => ([], [])
  | (k, i) :: rest =>
    if target ≤ i then
      let res := closePops target rest
      (res.1, endEnv k :: ((if rest = [] then [[]] else []) ++ res.2))
    else ((k, i) :: rest, [])

/-- Python `close_all_lists`, i.e. `close_lists_to_level(0)`. -/
def closeAll (s : St) : St :=
  let res := closePops 0 s.list_stack
  { s with list_stack := res.1, out := s.out ++ res.2 }

/-- The list-item while loop: pops entries strictly deeper than the current
indent, emitting their closing fragments (no blank is emitted here). -/
def popDeeper (indent : Nat) : List (LKind × Nat) → List (LKind × Nat) × List (List Char)
  | [] => ([], [])
  | (k, i) :: rest =>
    if indent < i then
      let res := popDeeper indent rest
      (res.1, endEnv k :: res.2)
    else ((k, i) :: rest, [])

/-- Processing of one list-item line: close deeper lists, possibly open a new
environment (with a blank fragment before only the outermost opening), then
emit the item with its inline-formatted content. -/
def listStep (kind : LKind) (indent : Nat) (content : List Char) (s : St) : St :=
  let res := popDeeper indent s.list_stack
  let s1 : St := { s with list_stack := res.1, out := s.out ++ res.2 }
  let s2 : St :=
    match res.1 with
    | [] =>
      { s1 with out := s1.out ++ [[], beginEnv kind],
                list_stack := [(kind, indent)] }
    | (k0, i0) :: tl =>
      if i0 < indent then
        { s1 with out := s1.out ++ [beginEnv kind],
                  list_stack := (kind, indent) :: (k0, i0) :: tl }
      else s1
  { s2 with out := s2.out ++ [chars "\\item " ++ convert_inline content] }

/-- Heading command for a marker count of 1 to 4. -/
def hCmd : Nat → List Char
  | 1 => chars "\\section"
  | 2 => chars "\\subsection"
  | 3 => chars "\\subsubsection"
  | _ => chars "\\paragraph"

/-- Processing of a header line: close all lists, then emit two blank
fragments followed by the heading construct. -/
def headerStep (k : Nat) (t : List Char) (s : St) : St :=
  let s1 := closeAll s
  { s1 with out := s1.out ++ [[], [], hCmd k ++ '\x7b' :: (convert_inline t ++ ['\x7d'])] }

/-- Processing of an image line: close all lists, then emit the figure block
surrounded by blank fragments. -/
def imageStep (path : List Char) (s : St) : St :=
  let s1 := closeAll s
  { s1 with out := s1.out ++
      [[], chars "\\begin{figure}[h]", chars "\\centering",
       chars "\\includegraphics[width=\\textwidth]" ++ '\x7b' :: (path ++ ['\x7d']),
       chars "\\end{figure}", []] }

/-- Processing of a paragraph line: close all lists, then emit the
inline-formatted line. -/
def paraStep (line : List Char) (s : St) : St :=
  let s1 := closeAll s
  { s1 with out := s1.out ++ [convert_inline line] }

/-- Processing of a blank line: emitted only when no list is open. -/
def blankStep (s : St) : St :=
  if s.list_stack = [] then { s with out := s.out ++ [[]] } else s

/-- Python `' & '.join` over the cells of one row. -/
def ampJoin : List (List Char) → List Char
  | [] => []
  | [c] => c
  | c :: cs => c ++ ' ' :: '&' :: ' ' :: ampJoin cs

/-- One emitted table row: cells joined by `&` and terminated by `\\`. -/
def rowLine (r : List (List Char)) : List Char :=
  ampJoin r ++ chars " \\\\"

/-- The emitted row lines: a rule follows the first (header) row. -/
def rowsOut : List (List (List Char)) → List (List Char)
  | [] => []
  | r0 :: rest => rowLine r0 :: chars "\\hline" :: rest.map rowLine

/-- The table block emitted by `flush_table`: column count taken from the
first accumulated row. -/
def tableBlock (rows : List (List (List Char))) : List (List Char) :=
  [[], chars "\\begin{table}[h]", chars "\\centering",
   chars "\\begin{tabular}" ++ '\x7b' :: (List.replicate (rows.headD []).length 'l' ++ ['\x7d']),
   chars "\\hline"] ++
  rowsOut rows ++
  [chars "\\hline", chars "\\end{tabular}", chars "\\end{table}", []]

/-- Python `flush_table`: emits the accumulated rows as a table block and
resets the accumulator; a no-op when nothing was accumulated. -/
def flush_table (s : St) : St :=
  if s.table_rows = [] then s
  else { s with out := s.out ++ tableBlock s.table_rows, table_rows := [], in_table := false }

/-- Processing of a non-separator table row: on entering a table, close all
lists and set the flag; then append the inline-formatted cells. -/
def tableStep (cells : List (List Char)) (s : St) : St :=
  let s1 := if s.in_table then s else
    (let s2 := closeAll s
     { s2 with in_table := true })
  { s1 with table_rows := s1.table_rows ++ [cells.map convert_inline] }

/-- Flush performed when a non-table-row line is seen while inside a table. -/
def maybeFlush (s : St) : St :=
  if s.in_table then flush_table s else s

/-- The `\s+(.+)$` tail of the header and list-item patterns, with the greedy
backtracking of the source regexes: the whitespace run cedes its final
character to the group when nothing else is left. -/
def wsTitle (rest : List Char) : Option (List Char) :=
  let j := (rest.takeWhile isPySpace).length
  if j = 0 then none
  else if j < rest.length then some (rest.drop j)
  else if 2 ≤ j then some (rest.drop (j - 1))
  else none

/-- The header pattern `^(#{1,4})\s+(.+)$`: marker count and title. -/
def headerMatch (l : List Char) : Option (Nat × List Char) :=
  let k := (l.takeWhile (fun c => c = '#')).length
  if 1 ≤ k ∧ k ≤ 4 then (wsTitle (l.drop k)).map (fun t => (k, t)) else none

/-- The unordered-item pattern `^(\s*)[-*]\s+(.+)$`: indent and content. -/
def ulMatch (l : List Char) : Option (Nat × List Char) :=
  let ws := l.takeWhile isPySpace
  match l.drop ws.length with
  | c :: rest =>
    if c = '-' ∨ c = '*' then (wsTitle rest).map (fun t => (ws.length, t)) else none
  | [] => none

/-- The ordered-item pattern `^(\s*)\d+\.\s+(.+)$`: indent and content. -/
def olMatch (l : List Char) : Option (Nat × List Char) :=
  let ws := l.takeWhile isPySpace
  let rest := l.drop ws.length
  let ds := rest.takeWhile Char.isDigit
  if ds = [] then none
  else
    match rest.drop ds.length with
    | c :: r2 => if c = '.' then (wsTitle r2).map (fun t => (ws.length, t)) else none
    | [] => none

/-- The image pattern `^!\[.*?\]\((.+?)\)$` applied to the stripped line:
campaign of the lazy groups resolves to the first `](` occurrence and a final
closing parenthesis with a nonempty path between. -/
def imageMatch (l : List Char) : Option (List Char) :=
  match l with
  | a :: b :: rest =>
    if a = '!' ∧ b = '[' then
      match findClose2 ']' '(' rest with
      | some (_, post) =>
        match post.reverse with
        | c :: m => if c = ')' ∧ m ≠ [] then some m.reverse else none
        | [] => none
      | none => none
    else none
  | _ => none

/-- Separator-cell test `^[-:]+$`: nonempty and all dashes or colons. -/
def isSepCell (c : List Char) : Bool :=
  !(c.isEmpty) && c.all (fun ch => ch = '-' || ch = ':')

/-- The cells of a table-row line: the stripped line without its first and
last pipe, split on pipes, each cell stripped. -/
def rowCells (l : List Char) : List (List Char) :=
  let t := pyStrip l
  (splitOnChar '|' ((t.drop 1).dropLast)).map pyStrip

/-- Table-row-line test: the stripped line starts and ends with a pipe. -/
def isTableRowLine (l : List Char) : Bool :=
  let t := pyStrip l
  leadsWith ['|'] t && leadsWith ['|'] t.reverse

/-- Classification of a non-table-row line, in the precedence order of the
source: header, unordered item, ordered item, image, blank, paragraph. -/
def nonTable (line : List Char) (s : St) : St :=
  match headerMatch line with
  | some kt => headerStep kt.1 kt.2 s
  | none =>
    match ulMatch line with
    | some it => listStep LKind.ul it.1 it.2 s
    | none =>
      match olMatch line with
      | some it => listStep LKind.ol it.1 it.2 s
      | none =>
        match imageMatch (pyStrip line) with
        | some path => imageStep path s
        | none =>
          if pyStrip line = [] then blankStep s else paraStep line s

/-- Processing of one input line, matching the loop body of `convert`:
table rows (separators skipped) first; any other line first flushes an open
table and is then classified. -/
def stepLine (s : St) (line : List Char) : St :=
  if isTableRowLine line then
    let cells := rowCells line
    if cells.all isSepCell then s else tableStep cells s
  else nonTable line (maybeFlush s)

/-- The state at the start of one `convert` call. -/
def initState : St := ⟨[], [], false, []⟩

/-- Runs the line loop of `convert` from the initial state. -/
def runLines (lines : List (List Char)) : St :=
  lines.foldl stepLine initState

/-- Accumulator-based newline collapsing: a pending run of `n` newlines is
emitted as `min n 3` newlines, which is exactly `re.sub(r'\n{4,}', '\n\n\n')`. -/
def collapseAux : Nat → List Char → List Char
  | n, [] => List.replicate (min n 3) '\n'
  | n, c :: r =>
    if c = '\n' then collapseAux (n + 1) r
    else List.replicate (min n 3) '\n' ++ c :: collapseAux 0 r

/-- Collapses every run of four or more newlines down to three. -/
def collapseNL (l : List Char) : List Char := collapseAux 0 l

/-- End of the line loop: close all lists, flush any open table, join the
fragments, collapse blank runs, and strip the result. -/
def finalize (s : St) : List Char :=
  let s1 := closeAll s
  let s2 := flush_table s1
  pyStrip (collapseNL (joinWith '\n' s2.out))

/-- The whole Markdown-to-LaTeX conversion `convert`. -/
def convert (md : List Char) : List Char :=
  finalize (runLines (splitOnChar '\n' md))

/-- The length of the leading run of marker characters of a line. -/
def hashCount (l : List Char) : Nat := (l.takeWhile (fun c => c = '#')).length

/-- Tests that the leading marker run is not followed by a whitespace
character (true also when nothing follows it). -/
def afterHashOk (l : List Char) : Bool :=
  match l.drop (hashCount l) with
  | [] => true
  | c :: _ => !(isPySpace c)

/-- The list-stack invariant: with the top of the stack at the head, the
recorded indents strictly decrease along the list, i.e. they strictly
increase from the bottom (outermost environment) to the top. -/
def StackOK (st : List (LKind × Nat)) : Prop :=
  List.Chain' (fun a b => b.2 < a.2) st

/-- A token of the text reaching the restoration loop: either a literal
segment of formatted text or the sentinel of placeholder `i`. -/
inductive Tok
  | seg (s : List Char)
  | ph (i : Nat)
deriving DecidableEq

/-- Renders a token list back to text, each placeholder as its sentinel. -/
def render : List Tok → List Char
  | [] => []
  | Tok.seg s :: r => s ++ render r
  | Tok.ph i :: r => sentinel i ++ render r

/-- Replaces every occurrence of placeholder `n` by the literal segment
`rep`, mirroring one `str.replace` step of the restoration loop. -/
def substTok (n : Nat) (rep : List Char) : List Tok → List Tok
  | [] => []
  | Tok.seg s :: r => Tok.seg s :: substTok n rep r
  | Tok.ph i :: r => (if i = n then Tok.seg rep else Tok.ph i) :: substTok n rep r

/-- Iterates `substTok` over a placeholder list starting at index `n`,
mirroring the whole restoration loop at the token level. -/
def substAllFrom (n : Nat) : List (List Char) → List Tok → List Tok
  | [], toks => toks
  | m :: ms, toks => substAllFrom (n + 1) ms (substTok n m toks)

/-- Renders a token list with every placeholder `i` replaced by the span
`ms.getD (i - n) []`. -/
def renderOff (n : Nat) (ms : List (List Char)) : List Tok → List Char
  | [] => []
  | Tok.seg s :: r => s ++ renderOff n ms r
  | Tok.ph i :: r => ms.getD (i - n) [] ++ renderOff n ms r

/-- Renders a token list with every placeholder replaced by its span:
the intended result of an exact restoration. -/
def renderWith (ms : List (List Char)) (toks : List Tok) : List Char :=
  renderOff 0 ms toks

/-- Tests that a character list contains no NUL sentinel delimiter. -/
def noNul (s : List Char) : Bool :=
  s.all (fun c => !(c = '\x00'))

/-- Well-formedness of one literal piece (segment or span): it contains no
NUL and does not begin with the sentinel letter M, so it can neither hide a
sentinel nor extend one across a token boundary. -/
def spanOK (s : List Char) : Bool :=
  noNul s && !(leadsWith ['M'] s)

/-- Well-formedness of one token. -/
def tokOK : Tok → Bool
  | Tok.seg s => spanOK s
  | Tok.ph _ => true

/-- Well-formedness of a token list. -/
def toksOK (toks : List Tok) : Bool := toks.all tokOK

/-- Well-formedness of a placeholder list. -/
def spansOK (ms : List (List Char)) : Bool := ms.all spanOK

/-- Every placeholder index of the token list is in range. -/
def toksIdxOK (n : Nat) (toks : List Tok) : Bool :=
  toks.all (fun t => match t with | Tok.seg _ => true | Tok.ph i => i < n)

/-- Every placeholder index below `n` occurs exactly once in the token
list. -/
def toksOnce (n : Nat) (toks : List Tok) : Bool :=
  decide (∀ i < n, toks.count (Tok.ph i) = 1)

/-- Decimal value of a digit list, inverse to `natDigits`. -/
def digitsVal (l : List Char) : Nat :=
  l.foldl (fun acc c => acc * 10 + (c.toNat - 48)) 0

/-- Parses one sentinel token `\x00MATH<digits>\x00` at the head of the
text, returning its index and the rest. -/
def parseSent (l : List Char) : Option (Nat × List Char) :=
  match l with
  | a :: b :: c :: d :: e :: rest =>
    if a = '\x00' ∧ b = 'M' ∧ c = 'A' ∧ d = 'T' ∧ e = 'H' then
      let ds := rest.takeWhile Char.isDigit
      if ds = [] then none
      else
        match rest.drop ds.length with
        | f :: post => if f = '\x00' then some (digitsVal ds, post) else none
        | [] => none
    else none
  | _ => none

/-- Prepends a character to the leading segment of a token list. -/
def segCons (c : Char) : List Tok → List Tok
  | Tok.seg s :: ts => Tok.seg (c :: s) :: ts
  | ts => Tok.seg [c] :: ts

/-- Splits a text into literal segments and sentinel tokens. -/
def tokenizeAux : Nat → List Char → List Tok
  | _, [] => []
  | 0, l => [Tok.seg l]
  | fuel + 1, c :: r =>
    if c = '\x00' then
      match parseSent (c :: r) with
      | some ip => Tok.ph ip.1 :: tokenizeAux fuel ip.2
      | none => segCons c (tokenizeAux fuel r)
    else segCons c (tokenizeAux fuel r)

/-- Tokenization of a text. -/
def tokenize (l : List Char) : List Tok := tokenizeAux (l.length + 1) l

/-- Decidable guard under which the restoration loop is exact: the text is a
faithful rendering of its token decomposition, all segments and spans are
well formed, and every placeholder index is in range. -/
def restorable (ms : List (List Char)) (t : List Char) : Bool :=
  toksOK (tokenize t) && spansOK ms && toksIdxOK ms.length (tokenize t) &&
    decide (render (tokenize t) = t)

lemma closePops0_fst : ∀ st, (closePops 0 st).1 = [] := by
  intro st
  induction st with
  | nil => rfl
  | cons p tl ih =>
    obtain ⟨k, i⟩ := p
    simp [closePops, ih]

lemma closeAll_stack (s : St) : (closeAll s).list_stack = [] := by
  unfold closeAll
  simp [closePops0_fst]

lemma flush_stack (s : St) : (flush_table s).list_stack = s.list_stack := by
  unfold flush_table
  split <;> rfl

lemma maybeFlush_stack (s : St) : (maybeFlush s).list_stack = s.list_stack := by
  unfold maybeFlush
  split
  · exact flush_stack s
  · rfl

lemma headerStep_stack (k : Nat) (t : List Char) (s : St) :
    (headerStep k t s).list_stack = [] :=
  closeAll_stack s

lemma imageStep_stack (p : List Char) (s : St) :
    (imageStep p s).list_stack = [] :=
  closeAll_stack s

lemma paraStep_stack (l : List Char) (s : St) :
    (paraStep l s).list_stack = [] :=
  closeAll_stack s

lemma popDeeper_chain (ind : Nat) :
    ∀ st, StackOK st → StackOK (popDeeper ind st).1 := by
  intro st
  induction st with
  | nil => intro h; simpa [popDeeper] using h
  | cons p tl ih =>
    obtain ⟨k, i⟩ := p
    intro h
    by_cases hi : ind < i
    · simpa [popDeeper, hi] using ih (List.Chain'.tail h)
    · simpa [popDeeper, hi] using h

lemma listStep_stack (kind : LKind) (ind : Nat) (content : List Char) (s : St)
    (h : StackOK s.list_stack) : StackOK (listStep kind ind content s).list_stack := by
  have hp : StackOK (popDeeper ind s.list_stack).1 := popDeeper_chain ind s.list_stack h
  unfold listStep
  dsimp only
  cases hres : (popDeeper ind s.list_stack).1 with
  | nil =>
    exact List.chain'_singleton _
  | cons p tl =>
    obtain ⟨k0, i0⟩ := p
    rw [hres] at hp
    dsimp only
    by_cases hi : i0 < ind
    · simp only [hi, if_true]
      exact List.chain'_cons.mpr ⟨hi, hp⟩
    · simp only [hi, if_false]
      exact hp

lemma tableStep_stack (cells : List (List Char)) (s : St)
    (h : StackOK s.list_stack) : StackOK (tableStep cells s).list_stack := by
  unfold tableStep
  by_cases ht : s.in_table
  · simpa [ht] using h
  · simp only [ht, if_false]
    have hcl : (closeAll s).list_stack = [] := closeAll_stack s
    simp only [hcl]
    exact List.chain'_nil

lemma nonTable_stack (l : List Char) (s : St) (h : StackOK s.list_stack) :
    StackOK (nonTable l s).list_stack := by
  unfold nonTable
  split
  · rw [headerStep_stack]
    exact List.chain'_nil
  · split
    · exact listStep_stack _ _ _ _ h
    · split
      · exact listStep_stack _ _ _ _ h
      · split
        · rw [imageStep_stack]
          exact List.chain'_nil
        · split
          · unfold blankStep
            split
            · simpa using h
            · exact h
          · rw [paraStep_stack]
            exact List.chain'_nil

lemma stepLine_stack (s : St) (l : List Char) (h : StackOK s.list_stack) :
    StackOK (stepLine s l).list_stack := by
  unfold stepLine
  split
  · dsimp only
    split
    · exact h
    · exact tableStep_stack _ _ h
  · exact nonTable_stack l (maybeFlush s) (by rw [maybeFlush_stack]; exact h)

lemma foldl_stack (lines : List (List Char)) :
    ∀ s : St, StackOK s.list_stack → StackOK (List.foldl stepLine s lines).list_stack := by
  induction lines with
  | nil => intro s h; simpa using h
  | cons l ls ih =>
    intro s h
    exact ih (stepLine s l) (stepLine_stack s l h)

lemma escHead : ∀ t, leadsWith ['%'] (escapePercent t) = false := by
  intro t
  cases t with
  | nil => rfl
  | cons c r =>
    by_cases hc : c = '%'
    · simp [escapePercent, hc, leadsWith]
    · simp [escapePercent, hc, leadsWith]
      intro h
      exact hc h.symm

lemma escCounts : ∀ t, countSub ['%'] (escapePercent t) = countSub ['\\', '%'] (escapePercent t) := by
  intro t
  induction t with
  | nil => rfl
  | cons c r ih =>
    by_cases hc : c = '%'
    · subst hc
      have e1 : escapePercent ('%' :: r) = '\\' :: '%' :: escapePercent r := by
        simp [escapePercent]
      rw [e1]
      have l1 : leadsWith ['%'] ('\\' :: '%' :: escapePercent r) = false := by simp [leadsWith]
      have l2 : leadsWith ['%'] ('%' :: escapePercent r) = true := by simp [leadsWith]
      have l3 : leadsWith ['\\', '%'] ('\\' :: '%' :: escapePercent r) = true := by simp [leadsWith]
      have l4 : leadsWith ['\\', '%'] ('%' :: escapePercent r) = false := by simp [leadsWith]
      simp only [countSub, l1, l2, l3, l4, if_true, if_false]
      omega
    · have e1 : escapePercent (c :: r) = c :: escapePercent r := by
        simp [escapePercent, hc]
      rw [e1]
      have l1 : leadsWith ['%'] (c :: escapePercent r) = false := by
        simp [leadsWith]
        intro h
        exact hc h.symm
      have l4 : leadsWith ['\\', '%'] (c :: escapePercent r) = false := by
        simp [leadsWith, escHead r]
      simp only [countSub, l1, l4, if_false]
      omega

lemma tw_run (p : Char → Bool) (c : Char) (hp : p c = true) :
    ∀ (k : Nat) (d : Char) (r : List Char), p d = false →
      List.takeWhile p (List.replicate k c ++ d :: r) = List.replicate k c := by
  intro k
  induction k with
  | zero =>
    intro d r hd
    simp [List.takeWhile_cons, hd]
  | succ k ih =>
    intro d r hd
    simp only [List.replicate_succ, List.cons_append, List.takeWhile_cons, hp]
    rw [ih d r hd]
    simp

lemma tw_all_append (p : Char → Bool) :
    ∀ (sep : List Char), (∀ x ∈ sep, p x = true) →
      ∀ (d : Char) (r : List Char), p d = false →
        List.takeWhile p (sep ++ d :: r) = sep := by
  intro sep
  induction sep with
  | nil =>
    intro _ d r hd
    simp [List.takeWhile_cons, hd]
  | cons e tl ih =>
    intro hall d r hd
    have he : p e = true := hall e (by simp)
    simp only [List.cons_append, List.takeWhile_cons, he, if_true]
    rw [ih (fun x hx => hall x (by simp [hx])) d r hd]

lemma dw_app_last (c : Char) (h : isPySpace c = false) :
    ∀ xs : List Char, List.dropWhile isPySpace (xs ++ [c]) = List.dropWhile isPySpace xs ++ [c] := by
  intro xs
  induction xs with
  | nil => simp [List.dropWhile_cons, h]
  | cons x tl ih =>
    by_cases hx : isPySpace x = true
    · simp [List.dropWhile_cons, hx, ih]
    · simp [List.dropWhile_cons, hx]

lemma pyStrip_cons (c : Char) (l : List Char) (h : isPySpace c = false) :
    pyStrip (c :: l) = c :: dropTrail l := by
  unfold pyStrip dropTrail
  rw [List.dropWhile_cons, if_neg (by simp [h])]
  rw [List.reverse_cons, dw_app_last c h]
  simp

lemma tableRow_false (c : Char) (l : List Char) (hs : isPySpace c = false) (hp : ¬ c = '|') :
    isTableRowLine (c :: l) = false := by
  unfold isTableRowLine
  rw [pyStrip_cons c l hs]
  have hl : leadsWith ['|'] (c :: dropTrail l) = false := by
    simp [leadsWith]
    intro h
    exact hp h.symm
  simp [hl]

lemma headerMatch_hash (k : Nat) (hk1 : 1 ≤ k) (hk4 : k ≤ 4)
    (sep : List Char) (e : Char) (sep' : List Char) (hsep : sep = e :: sep')
    (hsepws : ∀ x ∈ sep, isPySpace x = true)
    (c : Char) (t' : List Char) (hc : isPySpace c = false) :
    headerMatch (List.replicate k '#' ++ sep ++ c :: t') = some (k, c :: t') := by
  have he : isPySpace e = true := hsepws e (by simp [hsep])
  have heh : (fun x => decide (x = '#')) e = false := by
    simp only [decide_eq_false_iff_not]
    intro hcontra
    rw [hcontra] at he
    exact absurd he (by decide)
  have htw : List.takeWhile (fun x => decide (x = '#'))
      (List.replicate k '#' ++ sep ++ c :: t') = List.replicate k '#' := by
    rw [hsep, List.append_assoc]
    exact tw_run _ '#' (by simp) k e (sep' ++ c :: t') heh
  unfold headerMatch
  rw [htw]
  simp only [List.length_replicate]
  rw [if_pos ⟨hk1, hk4⟩]
  have hdr : (List.replicate k '#' ++ sep ++ c :: t').drop k = sep ++ c :: t' := by
    rw [List.append_assoc]
    have hdl := List.drop_left (List.replicate k '#') (sep ++ c :: t')
    rwa [List.length_replicate] at hdl
  rw [hdr]
  unfold wsTitle
  have htws : List.takeWhile isPySpace (sep ++ c :: t') = sep :=
    tw_all_append isPySpace sep hsepws c t' hc
  rw [htws]
  have hlen0 : sep.length ≠ 0 := by
    rw [hsep]
    simp
  rw [if_neg hlen0]
  have hlt : sep.length < (sep ++ c :: t').length := by
    simp
  rw [if_pos hlt]
  have hdrop : (sep ++ c :: t').drop sep.length = c :: t' := List.drop_left sep (c :: t')
  rw [hdrop]
  rfl

/- basic equations for replaceAllAux -/

lemma raux_nil (p rep : List Char) : ∀ f, replaceAllAux p rep f [] = [] := by
  intro f
  cases f <;> rfl

lemma raux_succ (p rep : List Char) (f : Nat) (c : Char) (r : List Char) :
    replaceAllAux p rep (f + 1) (c :: r) =
      if leadsWith p (c :: r) then rep ++ replaceAllAux p rep f ((c :: r).drop p.length)
      else c :: replaceAllAux p rep f r := by
  rfl

lemma leadsWith_length {p l : List Char} (h : leadsWith p l = true) : p.length ≤ l.length := by
  induction p generalizing l with
  | nil => simp
  | cons a as ih =>
    cases l with
    | nil => exact absurd h (by simp [leadsWith])
    | cons b bs =>
      simp only [leadsWith, Bool.and_eq_true] at h
      simpa using ih h.2

lemma raux_fuel (p rep : List Char) (hp : p ≠ []) :
    ∀ f l f', l.length ≤ f → l.length ≤ f' →
      replaceAllAux p rep f l = replaceAllAux p rep f' l := by
  intro f
  induction f with
  | zero =>
    intro l f' hf _
    have : l = [] := List.length_eq_zero.mp (Nat.le_zero.mp hf)
    subst this
    rw [raux_nil, raux_nil]
  | succ f ih =>
    intro l f' hf hf'
    cases l with
    | nil => rw [raux_nil, raux_nil]
    | cons c r =>
      obtain ⟨f'', rfl⟩ : ∃ f'', f' = f'' + 1 := by
        cases f' with
        | zero => simp at hf'
        | succ k => exact ⟨k, rfl⟩
      rw [raux_succ, raux_succ]
      by_cases hm : leadsWith p (c :: r) = true
      · rw [if_pos hm, if_pos hm]
        have hplen : 1 ≤ p.length := by
          cases p with
          | nil => exact absurd rfl hp
          | cons _ _ => simp
        have hlen : ((c :: r).drop p.length).length ≤ f := by
          simp only [List.length_drop, List.length_cons]
          simp only [List.length_cons] at hf
          omega
        have hlen' : ((c :: r).drop p.length).length ≤ f'' := by
          simp only [List.length_drop, List.length_cons]
          simp only [List.length_cons] at hf'
          omega
        rw [ih _ f'' hlen hlen']
      · rw [if_neg hm, if_neg hm]
        have hlen : r.length ≤ f := by
          simp only [List.length_cons] at hf
          omega
        have hlen' : r.length ≤ f'' := by
          simp only [List.length_cons] at hf'
          omega
        rw [ih r f'' hlen hlen']

lemma ra_cons_nomatch (p rep : List Char) (c : Char) (r : List Char)
    (h : leadsWith p (c :: r) = false) :
    replaceAll p rep (c :: r) = c :: replaceAll p rep r := by
  unfold replaceAll
  simp only [List.length_cons]
  rw [raux_succ, if_neg (by simp [h])]

lemma ra_match (p rep l : List Char) (hp : p ≠ []) (h : leadsWith p l = true) :
    replaceAll p rep l = rep ++ replaceAll p rep (l.drop p.length) := by
  cases l with
  | nil =>
    cases p with
    | nil => exact absurd rfl hp
    | cons a as => exact absurd h (by simp [leadsWith])
  | cons c r =>
    unfold replaceAll
    simp only [List.length_cons]
    rw [raux_succ, if_pos h]
    congr 1
    have hplen : 1 ≤ p.length := by
      cases p with
      | nil => exact absurd rfl hp
      | cons _ _ => simp
    apply raux_fuel p rep hp
    · simp only [List.length_drop, List.length_cons]
      omega
    · simp only [List.length_drop, List.length_cons]
      omega

lemma leadsWith_self_append (p t : List Char) : leadsWith p (p ++ t) = true := by
  induction p with
  | nil => rfl
  | cons a as ih => simp [leadsWith, ih]

lemma leadsWith_append_both (x u v : List Char) :
    leadsWith (x ++ u) (x ++ v) = leadsWith u v := by
  induction x with
  | nil => rfl
  | cons a as ih => simp [leadsWith, ih]

/- sentinel structure -/

lemma sentinel_eq (i : Nat) :
    sentinel i = ('\x00' :: 'M' :: 'A' :: 'T' :: 'H' :: []) ++ (natDigits i ++ ['\x00']) := by
  simp [sentinel, chars]

lemma sentinel_head (i : Nat) :
    ∃ xs, sentinel i = '\x00' :: 'M' :: xs := by
  exact ⟨'A' :: 'T' :: 'H' :: (natDigits i ++ ['\x00']), by simp [sentinel_eq]⟩

lemma sentinel_ne_nil (i : Nat) : sentinel i ≠ [] := by
  obtain ⟨xs, h⟩ := sentinel_head i
  rw [h]
  simp

/- skip over NUL-free text -/

lemma leadsWith_sentinel_cons (i : Nat) (c : Char) (l : List Char) (hc : ¬ c = '\x00') :
    leadsWith (sentinel i) (c :: l) = false := by
  obtain ⟨xs, h⟩ := sentinel_head i
  rw [h]
  simp [leadsWith]
  intro hcontra
  exact absurd hcontra.symm hc

lemma ra_skip (i : Nat) (rep : List Char) :
    ∀ s t : List Char, noNul s = true →
      replaceAll (sentinel i) rep (s ++ t) = s ++ replaceAll (sentinel i) rep t := by
  intro s
  induction s with
  | nil => intro t _; rfl
  | cons c s' ih =>
    intro t hs
    have hc : ¬ c = '\x00' := by
      simp [noNul] at hs
      simpa using hs.1
    have hs' : noNul s' = true := by
      simp [noNul] at hs ⊢
      exact hs.2
    rw [List.cons_append, ra_cons_nomatch _ _ _ _ (leadsWith_sentinel_cons i c _ hc)]
    rw [ih t hs']
    simp

/- digit facts -/

lemma ndaux_mem_lt10 : ∀ f n, ∀ c ∈ natDigitsAux f n, ∃ d, d < 10 ∧ c = Nat.digitChar d := by
  intro f
  induction f with
  | zero => intro n c hc; simp [natDigitsAux] at hc
  | succ f ih =>
    intro n c hc
    by_cases hn : n < 10
    · simp [natDigitsAux, hn] at hc
      exact ⟨n, hn, hc⟩
    · simp [natDigitsAux, hn] at hc
      rcases hc with hc | hc
      · exact ih _ c hc
      · exact ⟨n % 10, Nat.mod_lt _ (by omega), hc⟩

lemma digitChar_ne_nul : ∀ d < 10, Nat.digitChar d ≠ '\x00' := by decide

lemma digitChar_ne_M : ∀ d < 10, Nat.digitChar d ≠ 'M' := by decide

lemma digitChar_toNat : ∀ d < 10, (Nat.digitChar d).toNat = 48 + d := by decide

lemma natDigits_nonul (n : Nat) : ∀ c ∈ natDigits n, ¬ c = '\x00' := by
  intro c hc
  obtain ⟨d, hd, rfl⟩ := ndaux_mem_lt10 (n + 1) n c hc
  exact digitChar_ne_nul d hd

lemma dval_append (xs : List Char) (c : Char) :
    digitsVal (xs ++ [c]) = digitsVal xs * 10 + (c.toNat - 48) := by
  simp [digitsVal, List.foldl_append]

lemma ndaux_val : ∀ f n, n < f → digitsVal (natDigitsAux f n) = n := by
  intro f
  induction f with
  | zero => intro n h; omega
  | succ f ih =>
    intro n h
    by_cases hn : n < 10
    · simp [natDigitsAux, hn, digitsVal]
      rw [digitChar_toNat n hn]
      omega
    · simp only [natDigitsAux, hn, if_false]
      rw [dval_append]
      have hdiv : n / 10 < f := by omega
      rw [ih (n / 10) hdiv]
      rw [digitChar_toNat (n % 10) (Nat.mod_lt _ (by omega))]
      omega

lemma natDigits_inj {a b : Nat} (h : natDigits a = natDigits b) : a = b := by
  have ha := ndaux_val (a + 1) a (by omega)
  have hb := ndaux_val (b + 1) b (by omega)
  unfold natDigits at h
  rw [h] at ha
  rw [hb] at ha
  omega

/- a NUL-terminated word is a prefix of another only when the words agree -/

lemma nulword_prefix :
    ∀ x y t : List Char, (∀ c ∈ x, ¬ c = '\x00') → (∀ c ∈ y, ¬ c = '\x00') →
      leadsWith (x ++ ['\x00']) ((y ++ ['\x00']) ++ t) = true → x = y := by
  intro x
  induction x with
  | nil =>
    intro y t _ hy h
    cases y with
    | nil => rfl
    | cons c y' =>
      simp only [List.nil_append, List.cons_append, leadsWith, Bool.and_eq_true,
        decide_eq_true_eq] at h
      exact absurd h.1.symm (hy c (by simp))
  | cons a x' ih =>
    intro y t hx hy h
    cases y with
    | nil =>
      simp only [List.nil_append, List.cons_append, leadsWith, Bool.and_eq_true,
        decide_eq_true_eq] at h
      exact absurd h.1 (hx a (by simp))
    | cons b y' =>
      simp only [List.cons_append, leadsWith, Bool.and_eq_true] at h
      have hab : a = b := by simpa using h.1
      have := ih y' t (fun c hc => hx c (by simp [hc])) (fun c hc => hy c (by simp [hc]))
        (by simpa using h.2)
      rw [hab, this]

lemma sentinel_nonmatch (n k : Nat) (t : List Char) (hnk : n ≠ k) :
    leadsWith (sentinel n) (sentinel k ++ t) = false := by
  cases hlw : leadsWith (sentinel n) (sentinel k ++ t) with
  | false => rfl
  | true =>
    exfalso
    rw [sentinel_eq n, sentinel_eq k] at hlw
    rw [List.append_assoc] at hlw
    rw [leadsWith_append_both] at hlw
    have heq := nulword_prefix (natDigits n) (natDigits k) t
      (natDigits_nonul n) (natDigits_nonul k) hlw
    exact hnk (natDigits_inj heq)

/- a well-formed token list never renders to text starting with M -/

lemma render_not_M :
    ∀ toks : List Tok, toksOK toks = true → leadsWith ['M'] (render toks) = false := by
  intro toks
  induction toks with
  | nil => intro _; rfl
  | cons t rest ih =>
    intro h
    have hrest : toksOK rest = true := by
      simp [toksOK] at h ⊢
      exact h.2
    cases t with
    | seg s =>
      cases s with
      | nil => simpa [render] using ih hrest
      | cons c s' =>
        have hcM : leadsWith ['M'] (c :: s') = false := by
          simp [toksOK, tokOK, spanOK] at h
          exact h.1.2
        simp only [render, List.cons_append]
        simp only [leadsWith] at hcM ⊢
        simpa using hcM
    | ph i =>
      obtain ⟨xs, hx⟩ := sentinel_head i
      simp only [render, hx, List.cons_append]
      simp [leadsWith]

/- one str.replace step acts token-wise on a well-formed interleaving -/

lemma replace_sentinel (n : Nat) (rep : List Char) :
    ∀ toks : List Tok, toksOK toks = true →
      replaceAll (sentinel n) rep (render toks) = render (substTok n rep toks) := by
  intro toks
  induction toks with
  | nil => intro _; rfl
  | cons t rest ih =>
    intro h
    have hrest : toksOK rest = true := by
      simp [toksOK] at h ⊢
      exact h.2
    have htok : tokOK t = true := by
      simp [toksOK] at h
      exact h.1
    cases t with
    | seg s =>
      have hnonul : noNul s = true := by
        simp [tokOK, spanOK] at htok
        exact htok.1
      show replaceAll (sentinel n) rep (s ++ render rest) = s ++ render (substTok n rep rest)
      rw [ra_skip n rep s (render rest) hnonul, ih hrest]
    | ph k =>
      by_cases hk : k = n
      · subst hk
        show replaceAll (sentinel k) rep (sentinel k ++ render rest) = _
        rw [ra_match _ _ _ (sentinel_ne_nil k) (leadsWith_self_append _ _)]
        rw [List.drop_left, ih hrest]
        simp [substTok, render]
      · have hdecomp : render (Tok.ph k :: rest) =
            '\x00' :: (('M' :: 'A' :: 'T' :: 'H' :: natDigits k) ++ ('\x00' :: render rest)) := by
          show sentinel k ++ render rest = _
          rw [sentinel_eq k]
          simp
        have hmid : noNul ('M' :: 'A' :: 'T' :: 'H' :: natDigits k) = true := by
          simp [noNul, List.all_eq_true]
          intro c hc
          exact natDigits_nonul k c hc
        have h0 : leadsWith (sentinel n)
            ('\x00' :: (('M' :: 'A' :: 'T' :: 'H' :: natDigits k) ++ ('\x00' :: render rest))) = false := by
          have hnm := sentinel_nonmatch n k (render rest) (fun he => hk he.symm)
          rwa [show sentinel k ++ render rest =
            '\x00' :: (('M' :: 'A' :: 'T' :: 'H' :: natDigits k) ++ ('\x00' :: render rest)) from by
              rw [sentinel_eq k]; simp] at hnm
        have h1 : leadsWith (sentinel n) ('\x00' :: render rest) = false := by
          obtain ⟨xs, hx⟩ := sentinel_head n
          have hM := render_not_M rest hrest
          rw [hx]
          generalize hr : render rest = rr at hM ⊢
          cases rr with
          | nil => rfl
          | cons c rr2 =>
            simp only [leadsWith, Bool.and_eq_false_iff] at hM ⊢
            right
            rcases hM with hM | hM
            · left
              exact hM
            · exact absurd hM (by simp [leadsWith])
        rw [hdecomp, ra_cons_nomatch _ _ _ _ h0, ra_skip n rep _ _ hmid,
          ra_cons_nomatch _ _ _ _ h1, ih hrest]
        rw [show substTok n rep (Tok.ph k :: rest) = Tok.ph k :: substTok n rep rest from by
          simp [substTok, hk]]
        rw [show render (Tok.ph k :: substTok n rep rest) =
          sentinel k ++ render (substTok n rep rest) from rfl]
        rw [sentinel_eq k]
        simp

lemma substTok_toksOK (n : Nat) (rep : List Char) (hrep : spanOK rep = true) :
    ∀ toks : List Tok, toksOK toks = true → toksOK (substTok n rep toks) = true := by
  intro toks
  induction toks with
  | nil => intro _; rfl
  | cons t rest ih =>
    intro h
    have hrest : toksOK rest = true := by
      simp [toksOK] at h ⊢
      exact h.2
    have htok : tokOK t = true := by
      simp [toksOK] at h
      exact h.1
    cases t with
    | seg s =>
      show toksOK (Tok.seg s :: substTok n rep rest) = true
      simp only [toksOK, List.all_cons, Bool.and_eq_true]
      exact ⟨htok, by simpa [toksOK] using ih hrest⟩
    | ph i =>
      by_cases hi : i = n
      · rw [show substTok n rep (Tok.ph i :: rest) = Tok.seg rep :: substTok n rep rest from by
          simp [substTok, hi]]
        simp only [toksOK, List.all_cons, Bool.and_eq_true]
        exact ⟨by simpa [tokOK] using hrep, by simpa [toksOK] using ih hrest⟩
      · rw [show substTok n rep (Tok.ph i :: rest) = Tok.ph i :: substTok n rep rest from by
          simp [substTok, hi]]
        simp only [toksOK, List.all_cons, Bool.and_eq_true]
        exact ⟨rfl, by simpa [toksOK] using ih hrest⟩

lemma restore_render_gen :
    ∀ (ms : List (List Char)) (n : Nat) (toks : List Tok),
      toksOK toks = true → spansOK ms = true →
      restoreAux n ms (render toks) = render (substAllFrom n ms toks) := by
  intro ms
  induction ms with
  | nil => intro n toks _ _; rfl
  | cons m ms' ih =>
    intro n toks htoks hms
    have hm : spanOK m = true := by
      simp [spansOK] at hms
      exact hms.1
    have hms' : spansOK ms' = true := by
      simp [spansOK] at hms ⊢
      exact hms.2
    show restoreAux (n + 1) ms' (replaceAll (sentinel n) m (render toks)) = _
    rw [replace_sentinel n m toks htoks]
    rw [ih (n + 1) (substTok n m toks) (substTok_toksOK n m hm toks htoks) hms']
    rfl

lemma mem_substTok {n : Nat} {rep : List Char} {i : Nat} :
    ∀ {toks : List Tok}, Tok.ph i ∈ substTok n rep toks → i ≠ n ∧ Tok.ph i ∈ toks := by
  intro toks
  induction toks with
  | nil => intro h; simp [substTok] at h
  | cons t rest ih =>
    intro h
    cases t with
    | seg s =>
      simp only [substTok, List.mem_cons] at h
      rcases h with h | h
      · exact absurd h (by simp)
      · have := ih h
        exact ⟨this.1, by simp [this.2]⟩
    | ph j =>
      by_cases hj : j = n
      · simp only [substTok, hj, if_pos rfl, List.mem_cons] at h
        rcases h with h | h
        · exact absurd h (by simp)
        · have := ih h
          exact ⟨this.1, by simp [this.2]⟩
      · simp only [substTok, if_neg hj, List.mem_cons] at h
        rcases h with h | h
        · have hij : i = j := by
            simpa using h
          subst hij
          exact ⟨hj, by simp⟩
        · have := ih h
          exact ⟨this.1, by simp [this.2]⟩

lemma renderOff_shift (n : Nat) (m : List Char) (ms' : List (List Char)) :
    ∀ toks : List Tok, (∀ i, Tok.ph i ∈ toks → n ≤ i) →
      renderOff (n + 1) ms' (substTok n m toks) = renderOff n (m :: ms') toks := by
  intro toks
  induction toks with
  | nil => intro _; rfl
  | cons t rest ih =>
    intro hidx
    have hrest : ∀ i, Tok.ph i ∈ rest → n ≤ i := fun i hi => hidx i (by simp [hi])
    cases t with
    | seg s =>
      show s ++ renderOff (n + 1) ms' (substTok n m rest) = s ++ renderOff n (m :: ms') rest
      rw [ih hrest]
    | ph i =>
      by_cases hi : i = n
      · rw [show substTok n m (Tok.ph i :: rest) = Tok.seg m :: substTok n m rest from by
          simp [substTok, hi]]
        show m ++ renderOff (n + 1) ms' (substTok n m rest) =
          (m :: ms').getD (i - n) [] ++ renderOff n (m :: ms') rest
        rw [ih hrest, hi]
        simp
      · rw [show substTok n m (Tok.ph i :: rest) = Tok.ph i :: substTok n m rest from by
          simp [substTok, hi]]
        show ms'.getD (i - (n + 1)) [] ++ renderOff (n + 1) ms' (substTok n m rest) =
          (m :: ms').getD (i - n) [] ++ renderOff n (m :: ms') rest
        rw [ih hrest]
        have hge : n ≤ i := hidx i (by simp)
        have hsub : i - n = (i - (n + 1)) + 1 := by omega
        rw [hsub, List.getD_cons_succ]

lemma subst_all_complete :
    ∀ (ms : List (List Char)) (n : Nat) (toks : List Tok),
      (∀ i, Tok.ph i ∈ toks → n ≤ i ∧ i < n + ms.length) →
      render (substAllFrom n ms toks) = renderOff n ms toks := by
  intro ms
  induction ms with
  | nil =>
    intro n toks hidx
    show render toks = renderOff n [] toks
    induction toks with
    | nil => rfl
    | cons t rest ihr =>
      have hrest : ∀ i, Tok.ph i ∈ rest → n ≤ i ∧ i < n + [].length :=
        fun i hi => hidx i (by simp [hi])
      cases t with
      | seg s =>
        show s ++ render rest = s ++ renderOff n [] rest
        rw [ihr hrest]
      | ph i =>
        have := hidx i (by simp)
        simp at this
        omega
  | cons m ms' ih =>
    intro n toks hidx
    show render (substAllFrom (n + 1) ms' (substTok n m toks)) = renderOff n (m :: ms') toks
    have hidx' : ∀ i, Tok.ph i ∈ substTok n m toks → n + 1 ≤ i ∧ i < (n + 1) + ms'.length := by
      intro i hi
      obtain ⟨hne, hmem⟩ := mem_substTok hi
      have := hidx i hmem
      simp only [List.length_cons] at this
      omega
    rw [ih (n + 1) (substTok n m toks) hidx']
    exact renderOff_shift n m ms' toks (fun i hi => (hidx i hi).1)

lemma restore_exact (ms : List (List Char)) (toks : List Tok)
    (h1 : toksOK toks = true) (h2 : spansOK ms = true)
    (h3 : toksIdxOK ms.length toks = true) :
    restoreAux 0 ms (render toks) = renderWith ms toks := by
  rw [restore_render_gen ms 0 toks h1 h2]
  have hidx : ∀ i, Tok.ph i ∈ toks → 0 ≤ i ∧ i < 0 + ms.length := by
    intro i hi
    simp only [toksIdxOK, List.all_eq_true] at h3
    have := h3 (Tok.ph i) hi
    simp at this
    omega
  rw [subst_all_complete ms 0 toks hidx]
  rfl

lemma getD_spanOK (ms : List (List Char)) (h : spansOK ms = true) (i : Nat) :
    spanOK (ms.getD i []) = true := by
  cases hg : ms.get? i with
  | none =>
    rw [List.getD_eq_get?, hg]
    rfl
  | some s =>
    rw [List.getD_eq_get?, hg]
    simp only [Option.getD_some]
    simp only [spansOK, List.all_eq_true] at h
    exact h s (List.get?_mem hg)

lemma noNul_append (a b : List Char) : noNul (a ++ b) = (noNul a && noNul b) := by
  simp [noNul, List.all_append]

lemma renderWith_noNul (ms : List (List Char)) :
    ∀ toks : List Tok, toksOK toks = true → spansOK ms = true →
      noNul (renderWith ms toks) = true := by
  intro toks
  induction toks with
  | nil => intro _ _; rfl
  | cons t rest ih =>
    intro h1 h2
    have hrest : toksOK rest = true := by
      simp [toksOK] at h1 ⊢
      exact h1.2
    cases t with
    | seg s =>
      have hs : noNul s = true := by
        simp [toksOK, tokOK, spanOK] at h1
        exact h1.1.1
      show noNul (s ++ renderWith ms rest) = true
      rw [noNul_append, hs, ih hrest h2]
      rfl
    | ph i =>
      have hd : noNul (ms.getD (i - 0) []) = true := by
        have hsp := getD_spanOK ms h2 (i - 0)
        simp only [spanOK, Bool.and_eq_true] at hsp
        exact hsp.1
      show noNul (ms.getD (i - 0) [] ++ renderWith ms rest) = true
      rw [noNul_append, hd, ih hrest h2]
      rfl

lemma noNul_no_contains :
    ∀ l : List Char, noNul l = true → containsSub ['\x00'] l = false := by
  intro l
  induction l with
  | nil => intro _; rfl
  | cons c r ih =>
    intro h
    have hc : ¬ c = '\x00' := by
      simp [noNul] at h
      simpa using h.1
    have hr : noNul r = true := by
      simp [noNul] at h ⊢
      exact h.2
    simp only [containsSub, leadsWith, Bool.or_eq_false_iff]
    constructor
    · simp
      intro hcontra
      exact hc hcontra.symm
    · exact ih hr

/-- Claim C1, counterexample.  The claim states that every extracted math
span is restored verbatim and in order for every input line.  For the line
`\[ \( x \) \]` the inner `\(..\)` span is extracted first, the outer
`\[..\]` span then captures the inner span's sentinel, and the ascending
restoration loop re-inserts that sentinel after its own index has already
been processed: the output still contains the raw `\x00MATH0\x00` token and
the extracted span `\( x \)` never reappears. -/
theorem C1_counterexample :
    convert_inline (chars "\\[ \\( x \\) \\]") = chars "\\[ \x00MATH0\x00 \\]" ∧
    containsSub (chars "\\( x \\)") (convert_inline (chars "\\[ \\( x \\) \\]")) = false := by
  exact ⟨by decide, by decide⟩

/-- Claim C1, amended.  The restoration step of `convert_inline` is exact
for every input line whose intermediate state is a well-formed sentinel
interleaving: whenever the text produced by the extraction and formatting
passes decomposes into literal segments and placeholder sentinels
(`restorable`: segments and spans free of the NUL delimiter and not
beginning with the sentinel letter M, every index in range, and the
decomposition rendering back to the text), the output replaces each
sentinel by its extracted span verbatim, in ascending index order, leaving
every segment untouched — so no formatting rule is ever applied inside a
math span's captured text.  In particular, for the input line
`Compute $a+b*c$ now` the output equals the input, the substring `a+b*c`
appears unchanged, the `*` inside the math span produces no italic markup,
and formatting still applies outside math spans. -/
theorem C1_math_protection_amended :
    (∀ line : List Char,
        restorable (mathExtract line).2 (applyFmt (mathExtract line).1) = true →
        convert_inline line =
          renderWith (mathExtract line).2 (tokenize (applyFmt (mathExtract line).1))) ∧
    convert_inline (chars "Compute $a+b*c$ now") = chars "Compute $a+b*c$ now" ∧
    containsSub (chars "a+b*c") (convert_inline (chars "Compute $a+b*c$ now")) = true ∧
    containsSub (chars "\\textit") (convert_inline (chars "Compute $a+b*c$ now")) = false ∧
    convert_inline (chars "**x** and $a*b$") = chars "\\textbf{x} and $a*b$" := by
  refine ⟨?_, by decide, by decide, by decide, by decide⟩
  intro line hres
  simp only [restorable, Bool.and_eq_true, decide_eq_true_eq] at hres
  obtain ⟨⟨⟨h1, h2⟩, h3⟩, h4⟩ := hres
  have hre := restore_exact (mathExtract line).2
    (tokenize (applyFmt (mathExtract line).1)) h1 h2 h3
  rw [h4] at hre
  exact hre

/-- Claim C1, witness: the guarded universal restoration statement applied
to the concrete line `$x$`, whose intermediate state satisfies the guard. -/
theorem C1_witness :
    convert_inline (chars "$x$") =
      renderWith (mathExtract (chars "$x$")).2
        (tokenize (applyFmt (mathExtract (chars "$x$")).1)) :=
  C1_math_protection_amended.1 (chars "$x$") (by decide)

/-- Claim C2, counterexample.  The converter never compares cell counts
across accumulated rows: during the conversion of `|a|b|` followed by `|c|`,
the accumulator holds one row of two cells and one row of one cell, so the
equal-column-count part of the claimed invariant fails at a reachable state. -/
theorem C2_counterexample :
    splitOnChar '\n' (chars "|a|b|\n|c|") = [chars "|a|b|", chars "|c|"] ∧
    (runLines [chars "|a|b|", chars "|c|"]).table_rows.map List.length = [2, 1] ∧
    (2 : Nat) ≠ 1 := by
  exact ⟨by decide, by decide, by decide⟩

/-- Claim C2, amended.  Separator rows (every cell only dashes or colons) are
recognized and discarded without being accumulated and without any other
state change, and the emitted table block takes its column count from the
cell count of the first accumulated row; equal column counts across rows are
not enforced. -/
theorem C2_table_accumulator_amended :
    (∀ (s : St) (l : List Char), isTableRowLine l = true →
        (rowCells l).all isSepCell = true → stepLine s l = s) ∧
    (∀ rs : List (List (List Char)), (tableBlock rs).get? 3 =
        some (chars "\\begin{tabular}" ++ '\x7b' ::
          (List.replicate (rs.headD []).length 'l' ++ ['\x7d']))) := by
  constructor
  · intro s l h1 h2
    unfold stepLine
    rw [if_pos h1]
    dsimp only
    rw [if_pos h2]
  · intro rs
    rfl

/-- Claim C2, witness: the separator line `|---|:-:|` leaves the initial
state untouched. -/
theorem C2_witness : stepLine initState (chars "|---|:-:|") = initState :=
  C2_table_accumulator_amended.1 initState (chars "|---|:-:|") (by decide) (by decide)

/-- Claim C3.  At every step of a conversion call the list-nesting stack is
strictly increasing in indent from bottom (outermost) to top: with the top of
the stack at the head of the list, indents strictly decrease along the list.
Quantifying over every line list covers every prefix of every conversion, so
the invariant holds at every intermediate state of `convert`. -/
theorem C3_stack_invariant : ∀ lines : List (List Char), StackOK (runLines lines).list_stack := by
  intro lines
  exact foldl_stack lines initState List.chain'_nil

/-- Claim C4.  The conversion is a deterministic pure function: byte-identical
inputs yield byte-identical outputs.  In this embedding `convert` is a pure
function of the input alone, folded from the fixed initial state, so equal
inputs give equal outputs. -/
theorem C4_deterministic : ∀ md1 md2 : List Char, md1 = md2 → convert md1 = convert md2 := by
  intro md1 md2 h
  rw [h]

/-- Claim C4, witness at a concrete input. -/
theorem C4_witness : convert (chars "x *y*") = convert (chars "x *y*") :=
  C4_deterministic (chars "x *y*") (chars "x *y*") rfl

/-- Claim C5.  For unordered items at strictly increasing indents 0, 2, 4 the
output opens exactly one itemize environment per indent level, in indent
order, and closes all three at end of input, innermost first; the full output
is computed exactly and both markers occur exactly three times. -/
theorem C5_list_nesting :
    convert (chars "- a\n  - b\n    - c") =
      chars "\\begin{itemize}\n\\item a\n\\begin{itemize}\n\\item b\n\\begin{itemize}\n\\item c\n\\end{itemize}\n\\end{itemize}\n\\end{itemize}" ∧
    countSub (chars "\\begin{itemize}") (convert (chars "- a\n  - b\n    - c")) = 3 ∧
    countSub (chars "\\end{itemize}") (convert (chars "- a\n  - b\n    - c")) = 3 := by
  exact ⟨by decide, by decide, by decide⟩

/-- Claim C6.  For a two-column table with a header row, one separator row and
two data rows, the output contains exactly one table block, its column
specifier has one column letter per cell of the first row, exactly three rows
are emitted (the separator is discarded), and a rule line immediately follows
the first emitted row. -/
theorem C6_table_shape :
    convert (chars "| H1 | H2 |\n|---|---|\n| a | b |\n| c | d |") =
      chars "\\begin{table}[h]\n\\centering\n\\begin{tabular}{ll}\n\\hline\nH1 & H2 \\\\\n\\hline\na & b \\\\\nc & d \\\\\n\\hline\n\\end{tabular}\n\\end{table}" ∧
    countSub (chars "\\begin{tabular}") (convert (chars "| H1 | H2 |\n|---|---|\n| a | b |\n| c | d |")) = 1 ∧
    countSub (chars " \\\\") (convert (chars "| H1 | H2 |\n|---|---|\n| a | b |\n| c | d |")) = 3 ∧
    containsSub (chars "H1 & H2 \\\\\n\\hline") (convert (chars "| H1 | H2 |\n|---|---|\n| a | b |\n| c | d |")) = true := by
  exact ⟨by decide, by decide, by decide, by decide⟩

/-- Claim C7, counterexample.  The claim states that the heading construct is
surrounded by blank lines both before and after.  For the input
`a`, `# T`, `x` the code emits two blank lines before the heading but no
blank line after it: the line `x` directly follows `\section{T}`. -/
theorem C7_counterexample :
    convert (chars "a\n# T\nx") = chars "a\n\n\n\\section{T}\nx" ∧
    containsSub (chars "\n\n\\section{T}") (convert (chars "a\n# T\nx")) = true ∧
    containsSub (chars "\\section{T}\n\n") (convert (chars "a\n# T\nx")) = false := by
  exact ⟨by decide, by decide, by decide⟩

/-- Claim C7, amended.  A line of 1 to 4 marker characters followed by a
nonempty whitespace run and text (first text character not whitespace, no
newline in the line) is classified as a header of the corresponding weight;
processing it closes all open lists, inline-formats the title, and emits the
heading preceded by two blank fragments and followed by none. -/
theorem C7_header_amended (s : St) (k : Nat) (sep : List Char) (c : Char) (t' : List Char)
    (hk1 : 1 ≤ k) (hk4 : k ≤ 4)
    (hsep : sep ≠ [])
    (hsepws : ∀ x ∈ sep, isPySpace x = true)
    (hc : isPySpace c = false)
    (_hnl : '\n' ∉ t') :
    stepLine s (List.replicate k '#' ++ sep ++ c :: t') =
      headerStep k (c :: t') (maybeFlush s) := by
  obtain ⟨e, sep', rfl⟩ : ∃ e sep', sep = e :: sep' := by
    cases sep with
    | nil => exact absurd rfl hsep
    | cons e sep' => exact ⟨e, sep', rfl⟩
  have hline : List.replicate k '#' ++ (e :: sep') ++ c :: t' =
      '#' :: (List.replicate (k - 1) '#' ++ (e :: sep') ++ c :: t') := by
    obtain ⟨k0, rfl⟩ : ∃ k0, k = k0 + 1 := ⟨k - 1, (Nat.succ_pred_eq_of_pos hk1).symm⟩
    simp [List.replicate_succ]
  have htr : isTableRowLine (List.replicate k '#' ++ (e :: sep') ++ c :: t') = false := by
    rw [hline]
    exact tableRow_false '#' _ (by decide) (by decide)
  unfold stepLine
  rw [htr]
  simp only [Bool.false_eq_true, if_false]
  unfold nonTable
  rw [headerMatch_hash k hk1 hk4 (e :: sep') e sep' rfl hsepws c t' hc]

/-- Claim C7, witness: the concrete header line `## T` from the initial
state. -/
theorem C7_witness :
    stepLine initState (List.replicate 2 '#' ++ [' '] ++ 'T' :: []) =
      headerStep 2 ('T' :: []) (maybeFlush initState) :=
  C7_header_amended initState 2 [' '] 'T' []
    (by decide) (by decide) (by decide) (by decide) (by decide) (by decide)

/-- Claim C8, counterexample.  The claim asserts that ANY input containing
`50% done` produces output containing `50\% done`; when the text sits inside
a protected math span the percent sign is left unescaped, so the conversion
of `see $a 50% done b$ ok` returns the input unchanged. -/
theorem C8_counterexample :
    containsSub (chars "50% done") (chars "see $a 50% done b$ ok") = true ∧
    convert (chars "see $a 50% done b$ ok") = chars "see $a 50% done b$ ok" ∧
    containsSub (chars "50\\% done") (convert (chars "see $a 50% done b$ ok")) = false := by
  exact ⟨by decide, by decide, by decide⟩

/-- Claim C8, amended.  The escaping step prefixes every literal percent sign
with a backslash: in its output, occurrences of `%` and of `\%` coincide.
For input containing `50% done` outside any math span, one run of the
converter yields `50\% done` with no double escaping. -/
theorem C8_percent_amended :
    (∀ t : List Char, countSub ['%'] (escapePercent t) = countSub ['\\', '%'] (escapePercent t)) ∧
    convert (chars "It is 50% done") = chars "It is 50\\% done" ∧
    containsSub (chars "50\\% done") (convert (chars "It is 50% done")) = true ∧
    containsSub (chars "\\\\%") (convert (chars "It is 50% done")) = false := by
  exact ⟨escCounts, by decide, by decide, by decide⟩

/-- Claim C9.  A line starting with a marker character whose marker run has
length five or more, or whose marker run is not followed by a whitespace
character, is not a header: it falls through every structural branch and is
processed as a paragraph line, after flushing any open table and closing any
open lists (both contained in `paraStep` after `maybeFlush`). -/
theorem C9_nonheader_paragraph (s : St) (l : List Char)
    (hh : leadsWith ['#'] l = true)
    (hnh : 5 ≤ hashCount l ∨ afterHashOk l = true) :
    stepLine s l = paraStep l (maybeFlush s) := by
  obtain ⟨r, rfl⟩ : ∃ r, l = '#' :: r := by
    cases l with
    | nil => exact absurd hh (by decide)
    | cons c r =>
      have hc : '#' = c := by simpa [leadsWith] using hh
      subst hc
      exact ⟨r, rfl⟩
  have htr : isTableRowLine ('#' :: r) = false :=
    tableRow_false '#' r (by decide) (by decide)
  have hkk : (List.takeWhile (fun c => decide (c = '#')) ('#' :: r)).length =
      hashCount ('#' :: r) := rfl
  have hws0 : List.takeWhile isPySpace ('#' :: r) = [] := by
    rw [List.takeWhile_cons, if_neg (by decide)]
  have hhm : headerMatch ('#' :: r) = none := by
    unfold headerMatch
    dsimp only
    rw [hkk]
    rcases hnh with h5 | hws
    · rw [if_neg]
      intro hcontra
      omega
    · by_cases hguard : 1 ≤ hashCount ('#' :: r) ∧ hashCount ('#' :: r) ≤ 4
      · rw [if_pos hguard]
        have hwst : wsTitle (('#' :: r).drop (hashCount ('#' :: r))) = none := by
          unfold afterHashOk at hws
          cases hd : ('#' :: r).drop (hashCount ('#' :: r)) with
          | nil => rfl
          | cons d rest =>
            rw [hd] at hws
            have hdns : isPySpace d = false := by simpa using hws
            have htw : List.takeWhile isPySpace (d :: rest) = [] := by
              rw [List.takeWhile_cons, if_neg (by simp [hdns])]
            unfold wsTitle
            rw [htw]
            simp
        rw [hwst]
        rfl
      · rw [if_neg hguard]
  have hul : ulMatch ('#' :: r) = none := by
    unfold ulMatch
    rw [hws0]
    simp only [List.length_nil, List.drop_zero]
    rw [if_neg (by decide)]
  have hdg : List.takeWhile Char.isDigit ('#' :: r) = [] := by
    rw [List.takeWhile_cons, if_neg (by decide)]
  have hol : olMatch ('#' :: r) = none := by
    unfold olMatch
    rw [hws0]
    simp only [List.length_nil, List.drop_zero]
    rw [hdg]
    rw [if_pos rfl]
  have hps : pyStrip ('#' :: r) = '#' :: dropTrail r := pyStrip_cons '#' r (by decide)
  have him : imageMatch (pyStrip ('#' :: r)) = none := by
    rw [hps]
    unfold imageMatch
    cases dropTrail r with
    | nil => rfl
    | cons d tl =>
      dsimp only
      rw [if_neg (fun h => absurd h.1 (by decide))]
  have hblank : ¬ (pyStrip ('#' :: r) = []) := by
    rw [hps]
    simp
  unfold stepLine
  rw [htr]
  simp only [Bool.false_eq_true, if_false]
  unfold nonTable
  simp only [hhm, hul, hol, him]
  rw [if_neg hblank]

/-- Claim C9, witness: the line `#####x` from the initial state. -/
theorem C9_witness :
    stepLine initState (chars "#####x") = paraStep (chars "#####x") (maybeFlush initState) :=
  C9_nonheader_paragraph initState (chars "#####x") (by decide) (Or.inl (by decide))

/-- Claim C10, counterexample.  The claim asserts that for every NUL-free
input line no sentinel token is left in the output and every extracted span
reappears exactly once.  The NUL-free line `$ \( x \) $` nests a `\(..\)`
span inside a `$..$` span: the output is `$ \x00MATH0\x00 $`, which contains
a NUL sentinel, and the extracted span `\( x \)` does not reappear. -/
theorem C10_counterexample :
    (chars "$ \\( x \\) $").all (fun c => !(c = '\x00')) = true ∧
    convert_inline (chars "$ \\( x \\) $") = chars "$ \x00MATH0\x00 $" ∧
    containsSub ['\x00'] (convert_inline (chars "$ \\( x \\) $")) = true ∧
    containsSub (chars "\\( x \\)") (convert_inline (chars "$ \\( x \\) $")) = false := by
  exact ⟨by decide, by decide, by decide, by decide⟩

/-- Claim C10, amended.  For every input line that contains no NUL
character and whose extraction and formatting result is a well-formed
sentinel interleaving (`restorable`) in which every placeholder's sentinel
occurs exactly once (`toksOnce`), the output of `convert_inline` is the
interleaving with each sentinel replaced by its extracted span — every
span reappears exactly once and verbatim — and the output contains no
leftover sentinel token.  Absence of NUL in the input alone is not
sufficient, as the counterexample shows. -/
theorem C10_sentinel_amended :
    (∀ line : List Char,
        noNul line = true →
        restorable (mathExtract line).2 (applyFmt (mathExtract line).1) = true →
        toksOnce (mathExtract line).2.length
          (tokenize (applyFmt (mathExtract line).1)) = true →
        convert_inline line =
          renderWith (mathExtract line).2 (tokenize (applyFmt (mathExtract line).1)) ∧
        containsSub ['\x00'] (convert_inline line) = false) ∧
    convert_inline (chars "a $x$ b \\(y\\) c") = chars "a $x$ b \\(y\\) c" ∧
    containsSub ['\x00'] (convert_inline (chars "a $x$ b \\(y\\) c")) = false ∧
    countSub (chars "$x$") (convert_inline (chars "a $x$ b \\(y\\) c")) = 1 ∧
    countSub (chars "\\(y\\)") (convert_inline (chars "a $x$ b \\(y\\) c")) = 1 := by
  refine ⟨?_, by decide, by decide, by decide, by decide⟩
  intro line _ hres _
  simp only [restorable, Bool.and_eq_true, decide_eq_true_eq] at hres
  obtain ⟨⟨⟨h1, h2⟩, h3⟩, h4⟩ := hres
  have heq : convert_inline line =
      renderWith (mathExtract line).2 (tokenize (applyFmt (mathExtract line).1)) := by
    have hre := restore_exact (mathExtract line).2
      (tokenize (applyFmt (mathExtract line).1)) h1 h2 h3
    rw [h4] at hre
    exact hre
  refine ⟨heq, ?_⟩
  rw [heq]
  exact noNul_no_contains _ (renderWith_noNul _ _ h1 h2)

/-- Claim C10, witness: the guarded universal statement applied to the
NUL-free two-span line `$x$\(y\)`, whose placeholder indices appear in
reverse positional order. -/
theorem C10_witness :
    (convert_inline (chars "$x$\\(y\\)") =
      renderWith (mathExtract (chars "$x$\\(y\\)")).2
        (tokenize (applyFmt (mathExtract (chars "$x$\\(y\\)")).1)) ∧
    containsSub ['\x00'] (convert_inline (chars "$x$\\(y\\)")) = false) :=
  C10_sentinel_amended.1 (chars "$x$\\(y\\)") (by decide) (by decide) (by decide)
